import Mathlib

/-!
Verification development for the CouchFinder acquisition-and-notification
pipeline.  The Python source under scrutiny is shallowly embedded below:
pure helpers become Lean functions, the SQLite listings table becomes an
explicit list of rows, HTTP traffic in the notifier becomes an oracle of
responses plus an explicit event trace, and Python's run-seeded string
`hash` becomes an explicit function parameter.
-/

namespace CouchFinder

/-! ## Python-flavoured string helpers -/

/-- Truthiness of an optional string, as Python sees it: `None` and `""` are
falsy, every other string is truthy. -/
def pyTruthy : Option String → Bool
  | none => false
  | some s => s ≠ ""

/-- Python's `a or b` on two optional strings. -/
def pyOr (a b : Option String) : Option String :=
  if pyTruthy a then a else b

/-- Substring containment over character lists (Python's `pat in s`). -/
def containsSubList : List Char → List Char → Bool
  | [], pat => pat = []
  | c :: cs, pat => pat.isPrefixOf (c :: cs) || containsSubList cs pat

/-- Python's `pat in s` on strings. -/
def containsSub (s pat : String) : Bool :=
  containsSubList s.toList pat.toList

/-- Python's `s.startswith(pat)` (code-point-wise, as Python strings are). -/
def pyStartsWith (s pat : String) : Bool :=
  pat.toList.isPrefixOf s.toList

/-- Python's `s.lower()`, character by character. -/
def pyLowerStr (s : String) : String :=
  String.mk (s.toList.map Char.toLower)

/-- Python's slice `s[:n]` (by code point). -/
def pyTakeStr (s : String) (n : Nat) : String :=
  String.mk (s.toList.take n)

/-- Python's `str.capitalize()`: first character upper-cased, the rest
lower-cased. -/
def pyCapitalize (s : String) : String :=
  String.mk (match s.toList with
    | [] => []
    | c :: cs => Char.toUpper c :: cs.map Char.toLower)

/-! ## Listing data model (`database.Listing`) -/

/-- The `Listing` dataclass of `database.py`.  `price`, `image_url` and
`location` may be `None` in the source and are `Option`s here. -/
structure Listing where
  id : String
  platform : String
  title : String
  price : Option String
  url : String
  image_url : Option String := none
  location : Option String := none
deriving DecidableEq, Repr

/-! ## Listing-id extraction

`CraigslistScraper._extract_id` runs `re.search(r'/(\d+)\.html', url)` and
falls back to `f"cl_{hash(url)}"`; `FacebookScraper._extract_id` runs
`re.search(r'/item/(\d+)', url)` with fallback `f"fb_{hash(url)}"`.
Python's `hash` on strings is salted per process run, so it is embedded as
an explicit parameter `pyHash : String → Int`.

The regex `/(\d+)\.html`: a match at a given start position exists exactly
when the position holds `'/'`, the maximal digit run after it is nonempty,
and `".html"` follows that run (a shorter digit prefix cannot be followed
by `'.'`, the next character being a digit, so greedy matching with
backtracking reduces to the maximal run).  `re.search` takes the leftmost
such position. -/

/-- Maximal run of decimal digits at the head of a character list. -/
def digitRun : List Char → List Char
  | [] => []
  | c :: cs => if c.isDigit then c :: digitRun cs else []

/-- Leftmost match of `/(\d+)\.html`, returning the captured digit group. -/
def clScanId : List Char → Option (List Char)
  | [] => none
  | c :: cs =>
    if c = '/' then
      let run := digitRun cs
      if run ≠ [] ∧ (".html".toList.isPrefixOf (cs.drop run.length)) then some run
      else clScanId cs
    else clScanId cs

/-- Leftmost match of `/item/(\d+)`, returning the captured digit group. -/
def fbScanId : List Char → Option (List Char)
  | [] => none
  | c :: cs =>
    if "/item/".toList.isPrefixOf (c :: cs) then
      let run := digitRun ((c :: cs).drop 6)
      if run ≠ [] then some run else fbScanId cs
    else fbScanId cs

/-- `CraigslistScraper._extract_id`. -/
def clExtractId (pyHash : String → Int) (url : String) : String :=
  match clScanId url.toList with
  | some run => "cl_" ++ String.mk run
  | none => "cl_" ++ toString (pyHash url)

/-- `FacebookScraper._extract_id`. -/
def fbExtractId (pyHash : String → Int) (url : String) : String :=
  match fbScanId url.toList with
  | some run => "fb_" ++ String.mk run
  | none => "fb_" ++ toString (pyHash url)

/-! ## Craigslist page extraction (`CraigslistScraper._parse_listings_from_html`)

BeautifulSoup's DOM walk itself is external; a `gallery-card` div is
embedded as the atoms the parser reads off it: the `a.posting-title` link
(if any), the fallback link matching `/\d+\.html` (if any), each link's
`span.label` text and its own stripped text, the `span.priceinfo` text, and
the `img` tag's `data-src`/`src` attributes. -/

def clBaseUrl : String := "https://columbus.craigslist.org"

/-- An anchor tag inside a gallery card. -/
structure ClLink where
  href : String
  labelText : Option String
  text : String
deriving DecidableEq, Repr

/-- A `div.gallery-card` search-result record. -/
structure ClCard where
  postingTitleLink : Option ClLink
  fallbackLink : Option ClLink
  priceText : Option String
  img : Option (Option String × Option String)
deriving DecidableEq, Repr

/-- The link the parser settles on: `a.posting-title`, else the fallback. -/
def clFindLink (c : ClCard) : Option ClLink :=
  match c.postingTitleLink with
  | some l => some l
  | none => c.fallbackLink

/-- Absolute posting URL: relative hrefs are prefixed with the base URL. -/
def clCardUrl (link : ClLink) : String :=
  if pyStartsWith link.href "/" then clBaseUrl ++ link.href else link.href

/-- Title: `span.label` text if the span exists, else the link text, with
`"Craigslist Listing"` substituted for an empty result. -/
def clTitle (link : ClLink) : String :=
  let t := match link.labelText with
    | some t => t
    | none => link.text
  if t = "" then "Craigslist Listing" else t

/-- Image URL: `img.get("data-src") or img.get("src")`, dropped when it is a
`data:` URL or contains `"blank"` (case-insensitively). -/
def clImageUrl (c : ClCard) : Option String :=
  match c.img with
  | none => none
  | some (ds, s) =>
    match pyOr ds s with
    | none => none
    | some v =>
      if v ≠ "" ∧ (pyStartsWith v "data:" ∨ containsSub (pyLowerStr v) "blank") then none
      else some v

/-- The derived id of a card, `none` when the card is skipped for lack of a
link or of an href. -/
def clCardId (pyHash : String → Int) (c : ClCard) : Option String :=
  match clFindLink c with
  | none => none
  | some link =>
    if link.href = "" then none
    else some (clExtractId pyHash (clCardUrl link))

/-- The `Listing` a card turns into. -/
def clListingOf (pyHash : String → Int) (c : ClCard) (link : ClLink) : Listing :=
  let url := clCardUrl link
  { id := clExtractId pyHash url
    platform := "craigslist"
    title := pyTakeStr (clTitle link) 200
    price := c.priceText
    url := url
    image_url := clImageUrl c
    location := some "Columbus, OH" }

/-- `_parse_listings_from_html`: iterate cards in page order, skip cards
without a usable link, stop the whole page as soon as a derived id lies in
`seen` (the early-stop check `db_seen_ids and listing_id in db_seen_ids`;
an absent or empty seen set never stops), otherwise parse and append.
Returns the listings together with the early-stop flag. -/
def clParsePage (pyHash : String → Int) (seen : List String) :
    List ClCard → List Listing × Bool
  | [] => ([], false)
  | c :: cs =>
    match clFindLink c with
    | none => clParsePage pyHash seen cs
    | some link =>
      if link.href = "" then clParsePage pyHash seen cs
      else
        let lid := clExtractId pyHash (clCardUrl link)
        if seen ≠ [] ∧ lid ∈ seen then ([], true)
        else
          let rest := clParsePage pyHash seen cs
          (clListingOf pyHash c link :: rest.1, rest.2)

/-! ## Facebook page extraction (`FacebookScraper._parse_listings`)

An `a[href*=/marketplace/item/]` anchor is embedded with its href, and its
parent `div` (if any) with the stripped texts of its spans in document
order and its `img` tag's `src` attribute. -/

/-- The keyword allow-list `FURNITURE_KEYWORDS` of `facebook.py`. -/
def furnitureKeywords : List String :=
  ["sectional", "sofa", "couch", "loveseat", "chaise", "recliner",
   "furniture", "seating", "living room", "seat sofa", "modular"]

/-- The parent card of a marketplace item link. -/
structure FbCard where
  spans : List String
  imgSrc : Option (Option String)
deriving DecidableEq, Repr

/-- A marketplace item link found on the page. -/
structure FbLink where
  href : String
  card : Option FbCard
deriving DecidableEq, Repr

/-- The span scan assigning `price` (any text starting `"$"` or containing
`"Free"`) and `title` (longest text over 10 characters, beating the default
`"Facebook Listing"`). -/
def fbTitlePrice (spans : List String) : String × Option String :=
  spans.foldl
    (fun tp text =>
      if pyStartsWith text "$" ∨ containsSub text "Free" then (tp.1, some text)
      else if 10 < text.length ∧ ¬ pyStartsWith text "$" then
        if tp.1.length < text.length ∨ tp.1 = "Facebook Listing" then (text, tp.2)
        else tp
      else tp)
    ("Facebook Listing", none)

/-- The location scan: first span containing a comma and under 50 chars. -/
def fbLocation (spans : List String) : Option String :=
  spans.find? (fun text => containsSub text "," ∧ text.length < 50)

/-- Absolute item URL. -/
def fbUrl (href : String) : String :=
  if pyStartsWith href "/" then "https://www.facebook.com" ++ href else href

/-- The `Listing` a link turns into, or `none` when the furniture-keyword
filter discards it. -/
def fbListingOf (lk : FbLink) (lid : String) : Option Listing :=
  let url := fbUrl lk.href
  let spans := match lk.card with
    | none => []
    | some cd => cd.spans
  let tp := fbTitlePrice spans
  let image_url : Option String := match lk.card with
    | none => none
    | some cd =>
      match cd.imgSrc with
      | none => none
      | some a => a
  let location := fbLocation spans
  if furnitureKeywords.any (fun kw => containsSub (pyLowerStr tp.1) kw) then
    some { id := lid
           platform := "facebook"
           title := pyTakeStr tp.1 200
           price := tp.2
           url := url
           image_url := image_url
           location := some (match location with
             | some loc => if loc = "" then "Columbus, OH area" else loc
             | none => "Columbus, OH area") }
  else none

/-- The loop body of `_parse_listings`: within-page dedup via `pageSeen`,
then the early-stop check against `seen`, then parse-and-filter. -/
def fbGo (pyHash : String → Int) (seen : List String) (pageSeen : List String) :
    List FbLink → List Listing × Bool
  | [] => ([], false)
  | lk :: ls =>
    let lid := fbExtractId pyHash lk.href
    if lid ∈ pageSeen then fbGo pyHash seen pageSeen ls
    else
      let pageSeen' := lid :: pageSeen
      if seen ≠ [] ∧ lid ∈ seen then ([], true)
      else
        match fbListingOf lk lid with
        | none => fbGo pyHash seen pageSeen' ls
        | some l =>
          let rest := fbGo pyHash seen pageSeen' ls
          (l :: rest.1, rest.2)

/-- `_parse_listings`, starting with an empty within-page dedup set. -/
def fbParsePage (pyHash : String → Int) (seen : List String)
    (links : List FbLink) : List Listing × Bool :=
  fbGo pyHash seen [] links

/-! ## Cross-term deduplication (`get_listings` of both scrapers)

Both scrapers run the identical accumulation loop over the per-term parse
results: a cycle-local `page_seen_ids` set keeps the first occurrence of
each id and discards later ones, preserving encounter order. -/

/-- The inner accumulation loop, `seen` being `page_seen_ids`. -/
def cycleDedup (seen : List String) : List Listing → List Listing
  | [] => []
  | l :: ls =>
    if l.id ∈ seen then cycleDedup seen ls
    else l :: cycleDedup (l.id :: seen) ls

/-- The cross-term accumulation of `get_listings`: the per-term pages are
concatenated in term order and deduplicated by first occurrence. -/
def getListingsBatch (pages : List (List Listing)) : List Listing :=
  cycleDedup [] pages.flatten

/-! ## Seen-set store (`database.py`)

The `listings` table is a list of rows; the `id` column is the primary key,
so the `INSERT` raises `sqlite3.IntegrityError` exactly when the id is
already present, which `store_listings` swallows.  Timestamps are embedded
as integers (ISO-8601 strings of a fixed clock compare lexicographically in
timestamp order), measured in days so that `cleanup_old_listings`'s cutoff
`datetime.now() - timedelta(days=days)` is `now - days`. -/

/-- One row of the `listings` table. -/
structure Row where
  id : String
  platform : String
  title : String
  price : Option String
  url : String
  image_url : Option String
  location : Option String
  first_seen : Int
deriving DecidableEq, Repr

/-- The row an inserted listing produces, `now` being the single
`datetime.now().isoformat()` captured at the start of `store_listings`. -/
def rowOf (l : Listing) (now : Int) : Row :=
  { id := l.id
    platform := l.platform
    title := l.title
    price := l.price
    url := l.url
    image_url := l.image_url
    location := l.location
    first_seen := now }

/-- The insertion loop of `store_listings`: a duplicate primary key makes
the `INSERT` fail with `IntegrityError`, which is caught and skipped
without touching `stored`. -/
def storeGo (now : Int) (tbl : List Row) (stored : Nat) :
    List Listing → List Row × Nat
  | [] => (tbl, stored)
  | l :: ls =>
    if tbl.any (fun r => r.id = l.id) then storeGo now tbl stored ls
    else storeGo now (tbl ++ [rowOf l now]) (stored + 1) ls

/-- `store_listings`: early `0` on an empty input, else the insertion loop
starting from `stored = 0`, returning the updated table and the count. -/
def store_listings (tbl : List Row) (now : Int) (ls : List Listing) :
    List Row × Nat :=
  if ls = [] then (tbl, 0)
  else storeGo now tbl 0 ls

/-- `cleanup_old_listings`: count the rows with `first_seen < cutoff`,
delete exactly those, return the count. -/
def cleanup_old_listings (tbl : List Row) (now : Int) (days : Int) :
    List Row × Nat :=
  let cutoff := now - days
  ((tbl.filter fun r => decide ¬ (r.first_seen < cutoff)),
   (tbl.filter fun r => decide (r.first_seen < cutoff)).length)

/-! ## Notifier (`notifier.py`)

HTTP is embedded as an oracle `resps : Nat → Resp` handing the outcome of
the `n`-th `requests.post` of the call, and the call's observable behaviour
as a trace of events: one `post` per `requests.post`, one `sleep` per
`time.sleep`.  Durations are in milliseconds, so `RATE_LIMIT_DELAY = 2.1`
seconds is `2100` and a `retry_after` of the 429 body is carried in the
response itself. -/

/-- Outcome of one `requests.post` to the webhook. -/
inductive Resp where
  /-- HTTP 204 No Content: success. -/
  | ok : Resp
  /-- HTTP 429 with `retry_after` (milliseconds) in the JSON body. -/
  | rate : Nat → Resp
  /-- any other HTTP status code. -/
  | err : Nat → Resp
  /-- a `requests.RequestException` raised by the post. -/
  | exn : Resp
deriving DecidableEq, Repr

/-- One observable step of `send_batch`. -/
inductive Ev where
  /-- a `requests.post` of one batch payload to a webhook URL. -/
  | post : String → List Listing → Ev
  /-- a `time.sleep` of the given number of milliseconds. -/
  | sleep : Nat → Ev
deriving DecidableEq, Repr

/-- `RATE_LIMIT_DELAY` (2.1 s) in milliseconds. -/
def rateLimitDelayMs : Nat := 2100

/-- `MAX_EMBEDS_PER_MESSAGE`. -/
def maxEmbedsPerMessage : Nat := 10

/-- The three webhook configuration strings of `config.py`; an empty string
is an unset (falsy) value. -/
structure Webhooks where
  main : String
  craigslist : String
  facebook : String
deriving DecidableEq, Repr

/-- `_get_webhook_url`: the platform-specific webhook when set, else the
main one. -/
def getWebhookUrl (w : Webhooks) (platform : String) : String :=
  if platform = "craigslist" ∧ w.craigslist ≠ "" then w.craigslist
  else if platform = "facebook" ∧ w.facebook ≠ "" then w.facebook
  else w.main

/-- One step of the `by_platform` grouping loop of `send_batch`: append to
the platform's bucket, creating it at the end on first sight (Python dicts
iterate in insertion order). -/
def addToGroups (gs : List (String × List Listing)) (l : Listing) :
    List (String × List Listing) :=
  if gs.any (fun g => g.1 = l.platform) then
    gs.map (fun g => if g.1 = l.platform then (g.1, g.2 ++ [l]) else g)
  else gs ++ [(l.platform, [l])]

/-- The `by_platform` grouping of `send_batch`. -/
def groupByPlatform (ls : List Listing) : List (String × List Listing) :=
  ls.foldl addToGroups []

/-- The slicing loop `for i in range(0, len(xs), MAX_EMBEDS_PER_MESSAGE)`,
with the list's length as structural fuel. -/
def chunksGo {α : Type} : Nat → List α → List (List α)
  | 0, _ => []
  | _, [] => []
  | fuel + 1, l =>
    l.take maxEmbedsPerMessage :: chunksGo fuel (l.drop maxEmbedsPerMessage)

/-- The batches `xs[i:i+MAX_EMBEDS_PER_MESSAGE]` in slice order. -/
def chunks {α : Type} (l : List α) : List (List α) :=
  chunksGo l.length l

/-- The per-batch try block of `send_batch`: post once; on 204 count the
batch; on 429 sleep `retry_after`, repost once and count only on 204; on
any other status or a `RequestException` count nothing.  Returns the
delivered count, the events, and the next post index. -/
def postBatch (resps : Nat → Resp) (n : Nat) (url : String)
    (batch : List Listing) : Nat × List Ev × Nat :=
  match resps n with
  | .ok => (batch.length, [.post url batch], n + 1)
  | .rate ra =>
    match resps (n + 1) with
    | .ok => (batch.length, [.post url batch, .sleep ra, .post url batch], n + 2)
    | _ => (0, [.post url batch, .sleep ra, .post url batch], n + 2)
  | .err _ => (0, [.post url batch], n + 1)
  | .exn => (0, [.post url batch], n + 1)

/-- The batch loop for one platform: each batch is posted via `postBatch`
and, when a later batch exists (`i + MAX_EMBEDS_PER_MESSAGE <
len(platform_listings)`), a pacing sleep of `RATE_LIMIT_DELAY` follows. -/
def sendBatches (resps : Nat → Resp) (url : String) (n : Nat) :
    List (List Listing) → Nat × List Ev × Nat
  | [] => (0, [], n)
  | b :: bs =>
    let r := postBatch resps n url b
    let evs := if bs = [] then r.2.1 else r.2.1 ++ [Ev.sleep rateLimitDelayMs]
    let rest := sendBatches resps url r.2.2 bs
    (r.1 + rest.1, evs ++ rest.2.1, rest.2.2)

/-- The platform loop of `send_batch`: platforms without a resolvable
webhook are skipped; nothing separates one platform's events from the
next's. -/
def sendGroups (w : Webhooks) (resps : Nat → Resp) (n : Nat) :
    List (String × List Listing) → Nat × List Ev
  | [] => (0, [])
  | g :: gs =>
    let url := getWebhookUrl w g.1
    if url = "" then sendGroups w resps n gs
    else
      let r := sendBatches resps url n (chunks g.2)
      let rest := sendGroups w resps r.2.2 gs
      (r.1 + rest.1, r.2.1 ++ rest.2)

/-- `send_batch`: early `0` on an empty input, else group by platform and
run the platform loop, returning the delivered count and the trace. -/
def send_batch (w : Webhooks) (resps : Nat → Resp) (ls : List Listing) :
    Nat × List Ev :=
  if ls = [] then (0, [])
  else sendGroups w resps 0 (groupByPlatform ls)

/-! ## Discord embed construction (`notifier._create_embed`) -/

/-- `_is_valid_url`: falsy URLs are invalid, otherwise the URL must start
with `http://` or `https://`. -/
def isValidUrl : Option String → Bool
  | none => false
  | some u => if u = "" then false else pyStartsWith u "http://" || pyStartsWith u "https://"

/-- `_get_platform_color`. -/
def platformColor (p : String) : Nat :=
  if p = "facebook" then 0x1877F2
  else if p = "craigslist" then 0x5C2D91
  else 0x5865F2

/-- The embed dict `_create_embed` builds; `url`, `description` and
`thumbnail` are `none` exactly when the corresponding key is absent. -/
structure Embed where
  title : String
  color : Nat
  fields : List (String × String × Bool)
  timestamp : String
  url : Option String
  description : Option String
  thumbnail : Option String
deriving DecidableEq, Repr

/-- `_create_embed`, with `now` standing for `datetime.utcnow().isoformat()`. -/
def create_embed (now : String) (l : Listing) : Embed :=
  { title := pyTakeStr (if l.title = "" then "Listing" else l.title) 256
    color := platformColor l.platform
    fields :=
      [("Price",
        (match l.price with
         | some p => if p = "" then "Not listed" else p
         | none => "Not listed"), true),
       ("Platform", pyCapitalize l.platform, true)]
    timestamp := now
    url := if isValidUrl (some l.url) then some l.url else none
    description :=
      match l.location with
      | some loc => if loc = "" then none else some ("📍 " ++ loc)
      | none => none
    thumbnail := if isValidUrl l.image_url then l.image_url else none }

/-! ## Lemmas about the seen-set store -/

theorem storeGo_extends (now : Int) :
    ∀ (ls : List Listing) (tbl : List Row) (s : Nat),
      tbl <+: (storeGo now tbl s ls).1 := by
  intro ls
  induction ls with
  | nil => intro tbl s; exact List.prefix_refl tbl
  | cons l ls ih =>
    intro tbl s
    simp only [storeGo]
    split
    · exact ih tbl s
    · exact (List.prefix_append tbl [rowOf l now]).trans (ih (tbl ++ [rowOf l now]) (s + 1))

theorem storeGo_count (now : Int) :
    ∀ (ls : List Listing) (tbl : List Row) (s : Nat),
      (storeGo now tbl s ls).2 + tbl.length = s + (storeGo now tbl s ls).1.length := by
  intro ls
  induction ls with
  | nil => intro tbl s; simp [storeGo]
  | cons l ls ih =>
    intro tbl s
    simp only [storeGo]
    split
    · exact ih tbl s
    · have h := ih (tbl ++ [rowOf l now]) (s + 1)
      simp only [List.length_append, List.length_singleton] at h
      omega

theorem storeGo_filter_id (now : Int) :
    ∀ (ls : List Listing) (tbl : List Row) (s : Nat) (i : String),
      (∃ r ∈ tbl, r.id = i) →
      ((storeGo now tbl s ls).1.filter fun r => decide (r.id = i))
        = tbl.filter fun r => decide (r.id = i) := by
  intro ls
  induction ls with
  | nil => intro tbl s i _; rfl
  | cons l ls ih =>
    intro tbl s i hex
    simp only [storeGo]
    split
    case isTrue _ => exact ih tbl s i hex
    case isFalse hnone =>
      have hne : l.id ≠ i := by
        intro hli
        obtain ⟨r, hr, hri⟩ := hex
        exact hnone (List.any_eq_true.mpr ⟨r, hr, by simp [hri, hli]⟩)
      have hex' : ∃ r ∈ tbl ++ [rowOf l now], r.id = i := by
        obtain ⟨r, hr, hri⟩ := hex
        exact ⟨r, List.mem_append_left _ hr, hri⟩
      rw [ih (tbl ++ [rowOf l now]) (s + 1) i hex']
      simp [List.filter_append, rowOf, hne]

theorem storeGo_new_stamp (now : Int) :
    ∀ (ls : List Listing) (tbl : List Row) (s : Nat) (r : Row),
      r ∈ (storeGo now tbl s ls).1 → r ∈ tbl ∨ r.first_seen = now := by
  intro ls
  induction ls with
  | nil => intro tbl s r hr; exact Or.inl hr
  | cons l ls ih =>
    intro tbl s r hr
    simp only [storeGo] at hr
    split at hr
    · exact ih tbl s r hr
    · rcases ih (tbl ++ [rowOf l now]) (s + 1) r hr with hmem | hstamp
      · rcases List.mem_append.mp hmem with h | h
        · exact Or.inl h
        · right
          simp only [List.mem_singleton] at h
          rw [h]
          rfl
      · exact Or.inr hstamp

/-- C2: a call to `store_listings` containing a listing whose id already has
a row leaves the table's rows with that id untouched (in particular their
`first_seen`), raises nothing (the embedding is total), keeps every
pre-existing row in place, and returns exactly the number of rows actually
added, so the duplicate is not counted. -/
theorem store_listings_duplicate_noop (tbl : List Row) (now : Int) (ls : List Listing) :
    tbl <+: (store_listings tbl now ls).1
    ∧ (∀ l ∈ ls, (∃ r ∈ tbl, r.id = l.id) →
        ((store_listings tbl now ls).1.filter fun r => decide (r.id = l.id))
          = tbl.filter fun r => decide (r.id = l.id))
    ∧ (store_listings tbl now ls).2 + tbl.length = (store_listings tbl now ls).1.length := by
  unfold store_listings
  split
  · refine ⟨List.prefix_refl tbl, ?_, by simp⟩
    intro l hl
    subst_vars
    simp at hl
  · exact ⟨storeGo_extends now ls tbl 0,
      fun l _ hex => storeGo_filter_id now ls tbl 0 l.id hex,
      by have h := storeGo_count now ls tbl 0; omega⟩

def rowA : Row :=
  { id := "cl_1", platform := "craigslist", title := "old couch", price := some "$40"
    url := "https://columbus.craigslist.org/1.html", image_url := none
    location := some "Columbus, OH", first_seen := 100 }

def dupListing : Listing :=
  { id := "cl_1", platform := "craigslist", title := "same couch again", price := some "$45"
    url := "https://columbus.craigslist.org/1b.html", image_url := none, location := none }

def freshListing : Listing :=
  { id := "cl_2", platform := "craigslist", title := "fresh couch", price := none
    url := "https://columbus.craigslist.org/2.html", image_url := none, location := none }

theorem store_listings_duplicate_noop_witness :
    ((store_listings [rowA] 200 [dupListing, freshListing]).1.filter
        fun r => decide (r.id = dupListing.id)) = [rowA]
    ∧ (store_listings [rowA] 200 [dupListing, freshListing]).2 = 1 := by
  constructor
  · have h := (store_listings_duplicate_noop [rowA] 200 [dupListing, freshListing]).2.1
      dupListing (by simp) ⟨rowA, by simp, by decide⟩
    rw [h]
    decide
  · decide

/-- C10: every row a single `store_listings` call inserts carries the one
timestamp `now` captured at the start of the call, the returned count is
exactly the number of rows the call added, and the empty input returns `0`
with the table unchanged. -/
theorem store_listings_count_and_stamp (tbl : List Row) (now : Int) (ls : List Listing) :
    (∀ r ∈ (store_listings tbl now ls).1, r ∉ tbl → r.first_seen = now)
    ∧ (store_listings tbl now ls).2 + tbl.length = (store_listings tbl now ls).1.length
    ∧ store_listings tbl now [] = (tbl, 0) := by
  refine ⟨?_, ?_, by simp [store_listings]⟩
  · intro r hr hnot
    unfold store_listings at hr
    split at hr
    · exact absurd hr hnot
    · rcases storeGo_new_stamp now ls tbl 0 r hr with h | h
      · exact absurd h hnot
      · exact h
  · unfold store_listings
    split
    · simp
    · have h := storeGo_count now ls tbl 0; omega

theorem store_listings_count_and_stamp_witness :
    rowOf freshListing 200 ∈ (store_listings [rowA] 200 [dupListing, freshListing]).1
    ∧ (rowOf freshListing 200).first_seen = 200 := by
  refine ⟨by decide, ?_⟩
  exact (store_listings_count_and_stamp [rowA] 200 [dupListing, freshListing]).1
    (rowOf freshListing 200) (by decide) (by decide)

theorem length_filter_decide_split (c : Int) (l : List Row) :
    (l.filter fun r => decide (r.first_seen < c)).length
      + (l.filter fun r => decide (¬ (r.first_seen < c))).length = l.length := by
  induction l with
  | nil => rfl
  | cons a l ih =>
    rw [List.filter_cons, List.filter_cons]
    by_cases h : a.first_seen < c
    · rw [if_pos (by simpa using h), if_neg (by simpa using h)]
      simp only [List.length_cons]
      omega
    · rw [if_neg (by simpa using h), if_pos (by simpa using h)]
      simp only [List.length_cons]
      omega

/-- C7: `cleanup_old_listings` keeps exactly the rows whose `first_seen` is
not older than `now - days`, deletes the rest, returns the number deleted,
and with no qualifying row returns `0` leaving the table unchanged. -/
theorem cleanup_old_listings_correct (tbl : List Row) (now : Int) (days : Int) :
    (∀ r ∈ (cleanup_old_listings tbl now days).1, r ∈ tbl ∧ ¬ (r.first_seen < now - days))
    ∧ (∀ r ∈ tbl, ¬ (r.first_seen < now - days) → r ∈ (cleanup_old_listings tbl now days).1)
    ∧ (cleanup_old_listings tbl now days).2
        + (cleanup_old_listings tbl now days).1.length = tbl.length
    ∧ ((∀ r ∈ tbl, ¬ (r.first_seen < now - days)) →
        cleanup_old_listings tbl now days = (tbl, 0)) := by
  refine ⟨?_, ?_, ?_, ?_⟩
  · intro r hr
    simp only [cleanup_old_listings, List.mem_filter, decide_eq_true_eq] at hr
    exact hr
  · intro r hr hkeep
    simp only [cleanup_old_listings, List.mem_filter, decide_eq_true_eq]
    exact ⟨hr, hkeep⟩
  · simp only [cleanup_old_listings]
    exact length_filter_decide_split (now - days) tbl
  · intro hall
    simp only [cleanup_old_listings, Prod.mk.injEq]
    constructor
    · exact List.filter_eq_self.mpr fun r hr => by
        simpa using hall r hr
    · rw [List.length_eq_zero, List.filter_eq_nil_iff]
      intro r hr
      simpa using hall r hr

def oldRow : Row :=
  { id := "cl_9", platform := "craigslist", title := "stale", price := none
    url := "https://columbus.craigslist.org/9.html", image_url := none
    location := none, first_seen := 1 }

theorem cleanup_old_listings_correct_witness :
    rowA ∈ (cleanup_old_listings [rowA, oldRow] 105 7).1
    ∧ (cleanup_old_listings [rowA, oldRow] 105 7).2 = 1
    ∧ cleanup_old_listings [rowA] 105 7 = ([rowA], 0) := by
  refine ⟨?_, by decide, ?_⟩
  · exact (cleanup_old_listings_correct [rowA, oldRow] 105 7).2.1 rowA
      (by decide) (by decide)
  · exact (cleanup_old_listings_correct [rowA] 105 7).2.2.2 (by decide)

/-! ## Claim C6: id derivation across runs

When the native numeric identifier is extractable the derived id does not
depend on the hash seed; but both `_extract_id` fallbacks are
`f"cl_{hash(url)}"` / `f"fb_{hash(url)}"`, and `hash` on strings is salted
with `PYTHONHASHSEED` per interpreter run, so for a URL without an
extractable identifier two runs derive different ids. -/

/-- C6 (code bug): ids of URLs with an extractable numeric identifier are
independent of the run's string-hash function, but the fallback id is the
hash itself, which differs between two runs with different seeds —
contradicting the required cross-run determinism, `hash` being the only
run-dependent input of `_extract_id`. -/
theorem extract_id_seed_dependent :
    (∀ h₁ h₂ : String → Int,
      clExtractId h₁ "https://columbus.craigslist.org/fuo/7812345678.html"
        = clExtractId h₂ "https://columbus.craigslist.org/fuo/7812345678.html")
    ∧ (∀ h₁ h₂ : String → Int,
      fbExtractId h₁ "/marketplace/item/123456789/"
        = fbExtractId h₂ "/marketplace/item/123456789/")
    ∧ clExtractId (fun _ => 0) "https://columbus.craigslist.org/about"
        ≠ clExtractId (fun _ => 1) "https://columbus.craigslist.org/about"
    ∧ fbExtractId (fun _ => 0) "https://www.facebook.com/marketplace/you"
        ≠ fbExtractId (fun _ => 1) "https://www.facebook.com/marketplace/you" := by
  refine ⟨?_, ?_, by decide, by decide⟩
  · intro h₁ h₂
    have hscan : clScanId "https://columbus.craigslist.org/fuo/7812345678.html".toList
        = some "7812345678".toList := by decide
    simp only [clExtractId, hscan]
  · intro h₁ h₂
    have hscan : fbScanId "/marketplace/item/123456789/".toList
        = some "123456789".toList := by decide
    simp only [fbExtractId, hscan]

/-- C9: the embed built for a listing has no thumbnail when the image URL
is absent, empty, or of a non-http(s) scheme, and carries exactly the image
URL as thumbnail when it starts with `http://` or `https://`. -/
theorem create_embed_thumbnail (l : Listing) (now : String) :
    ((l.image_url = none ∨ l.image_url = some ""
        ∨ (∀ s, l.image_url = some s →
            pyStartsWith s "http://" = false ∧ pyStartsWith s "https://" = false)) →
      (create_embed now l).thumbnail = none)
    ∧ (∀ s, l.image_url = some s →
        (pyStartsWith s "http://" = true ∨ pyStartsWith s "https://" = true) →
        (create_embed now l).thumbnail = some s) := by
  constructor
  · intro hbad
    simp only [create_embed]
    cases hu : l.image_url with
    | none => simp [isValidUrl]
    | some s =>
      rcases hbad with h | h | h
      · rw [hu] at h; exact absurd h (by simp)
      · rw [hu] at h
        simp only [Option.some.injEq] at h
        simp [isValidUrl, h]
      · obtain ⟨h1, h2⟩ := h s hu
        by_cases hs : s = ""
        · simp [isValidUrl, hs]
        · simp [isValidUrl, hs, h1, h2]
  · intro s hs hstart
    simp only [create_embed]
    have hne : s ≠ "" := by
      intro he
      subst he
      rcases hstart with h | h <;> exact absurd h (by decide)
    rw [hs]
    rcases hstart with h | h <;> simp [isValidUrl, hne, h]

def dataUriListing : Listing :=
  { id := "fb_1", platform := "facebook", title := "sectional sofa", price := some "$10"
    url := "https://www.facebook.com/marketplace/item/1/"
    image_url := some "data:image/png;base64,AAAA", location := none }

def emptyImageListing : Listing :=
  { id := "fb_2", platform := "facebook", title := "sofa", price := none
    url := "https://www.facebook.com/marketplace/item/2/"
    image_url := some "", location := none }

def httpImageListing : Listing :=
  { id := "cl_3", platform := "craigslist", title := "couch", price := none
    url := "https://columbus.craigslist.org/3.html"
    image_url := some "https://images.craigslist.org/3.jpg", location := none }

theorem create_embed_thumbnail_witness :
    (create_embed "2026-01-01T00:00:00" dataUriListing).thumbnail = none
    ∧ (create_embed "2026-01-01T00:00:00" emptyImageListing).thumbnail = none
    ∧ (create_embed "2026-01-01T00:00:00" httpImageListing).thumbnail
        = some "https://images.craigslist.org/3.jpg" := by
  refine ⟨?_, ?_, ?_⟩
  · exact (create_embed_thumbnail dataUriListing "2026-01-01T00:00:00").1
      (Or.inr (Or.inr (fun s hsome => by
        simp only [dataUriListing, Option.some.injEq] at hsome
        subst hsome
        exact ⟨by decide, by decide⟩)))
  · exact (create_embed_thumbnail emptyImageListing "2026-01-01T00:00:00").1
      (Or.inr (Or.inl rfl))
  · exact (create_embed_thumbnail httpImageListing "2026-01-01T00:00:00").2
      "https://images.craigslist.org/3.jpg" rfl (Or.inr (by decide))

/-! ## Claim C4: per-batch delivery accounting

The claim's accounting rule, written out on its own over response codes and
batch sizes only, to be compared with what the implementation returns. -/

/-- Delivered count of one batch per the claim: success delivers the batch,
a rate-limit is retried exactly once and delivers only on success, anything
else delivers nothing. -/
def specDelivered (r₁ r₂ : Resp) (size : Nat) : Nat :=
  match r₁ with
  | .ok => size
  | .rate _ => match r₂ with
    | .ok => size
    | _ => 0
  | .err _ => 0
  | .exn => 0

/-- Number of posts one batch consumes: two after a rate-limit (the single
retry), one otherwise. -/
def specConsumed : Resp → Nat
  | .rate _ => 2
  | _ => 1

/-- Events of one batch per the claim: one post, except a rate-limited
batch posts, sleeps the server-indicated backoff, and posts once more. -/
def specEvents (r₁ : Resp) (url : String) (batch : List Listing) : List Ev :=
  match r₁ with
  | .rate ra => [.post url batch, .sleep ra, .post url batch]
  | _ => [.post url batch]

/-- Total delivered over a platform's batch sizes, threading the post
index; returns the total and the next post index. -/
def specBatchesRun (resps : Nat → Resp) : Nat → List Nat → Nat × Nat
  | n, [] => (0, n)
  | n, size :: rest =>
    let d := specDelivered (resps n) (resps (n + 1)) size
    let r := specBatchesRun resps (n + specConsumed (resps n)) rest
    (d + r.1, r.2)

/-- Total delivered over all platforms, skipping ones without a webhook. -/
def specGroupsDelivered (w : Webhooks) (resps : Nat → Resp) :
    Nat → List (String × List Nat) → Nat
  | _, [] => 0
  | n, g :: gs =>
    if getWebhookUrl w g.1 = "" then specGroupsDelivered w resps n gs
    else
      let r := specBatchesRun resps n g.2
      r.1 + specGroupsDelivered w resps r.2 gs

theorem postBatch_spec (resps : Nat → Resp) (n : Nat) (url : String) (b : List Listing) :
    postBatch resps n url b
      = (specDelivered (resps n) (resps (n + 1)) b.length,
         specEvents (resps n) url b,
         n + specConsumed (resps n)) := by
  cases h : resps n with
  | ok => simp [postBatch, specDelivered, specEvents, specConsumed, h]
  | rate ra =>
    cases h₂ : resps (n + 1) with
    | ok => simp [postBatch, specDelivered, specEvents, specConsumed, h, h₂]
    | rate ra₂ => simp [postBatch, specDelivered, specEvents, specConsumed, h, h₂]
    | err c => simp [postBatch, specDelivered, specEvents, specConsumed, h, h₂]
    | exn => simp [postBatch, specDelivered, specEvents, specConsumed, h, h₂]
  | err c => simp [postBatch, specDelivered, specEvents, specConsumed, h]
  | exn => simp [postBatch, specDelivered, specEvents, specConsumed, h]

theorem sendBatches_spec (resps : Nat → Resp) (url : String) :
    ∀ (bs : List (List Listing)) (n : Nat),
      (sendBatches resps url n bs).1 = (specBatchesRun resps n (bs.map List.length)).1
      ∧ (sendBatches resps url n bs).2.2 = (specBatchesRun resps n (bs.map List.length)).2 := by
  intro bs
  induction bs with
  | nil => intro n; exact ⟨rfl, rfl⟩
  | cons b bs ih =>
    intro n
    simp only [sendBatches, postBatch_spec, List.map_cons, specBatchesRun]
    exact ⟨by rw [(ih _).1], by rw [(ih _).2]⟩

theorem sendGroups_spec (w : Webhooks) (resps : Nat → Resp) :
    ∀ (gs : List (String × List Listing)) (n : Nat),
      (sendGroups w resps n gs).1
        = specGroupsDelivered w resps n
            (gs.map fun g => (g.1, (chunks g.2).map List.length)) := by
  intro gs
  induction gs with
  | nil => intro n; rfl
  | cons g gs ih =>
    intro n
    simp only [sendGroups, List.map_cons, specGroupsDelivered]
    split
    · exact ih n
    · rw [(sendBatches_spec resps _ (chunks g.2) n).1,
        (sendBatches_spec resps _ (chunks g.2) n).2, ih _]

/-- C4: each batch behaves per the claim's accounting — 204 delivers the
batch in one post; 429 sleeps the server-indicated backoff and retries that
batch exactly once, delivering it only if the retry returns 204; any other
status or a transport exception delivers nothing with no retry; nothing
raises (the embedding is total) — and `send_batch` returns the sum of the
individually delivered listings over all batches of all platforms. -/
theorem send_batch_delivery_accounting (resps : Nat → Resp) (n : Nat) (url : String)
    (b : List Listing) (bs : List (List Listing)) (w : Webhooks) (ls : List Listing) :
    postBatch resps n url b
      = (specDelivered (resps n) (resps (n + 1)) b.length,
         specEvents (resps n) url b,
         n + specConsumed (resps n))
    ∧ (sendBatches resps url n bs).1 = (specBatchesRun resps n (bs.map List.length)).1
    ∧ (send_batch w resps ls).1
        = (if ls = [] then 0
           else specGroupsDelivered w resps 0
             ((groupByPlatform ls).map fun g => (g.1, (chunks g.2).map List.length))) := by
  refine ⟨postBatch_spec resps n url b, (sendBatches_spec resps url bs n).1, ?_⟩
  unfold send_batch
  split
  · rfl
  · exact sendGroups_spec w resps (groupByPlatform ls) 0

def okResps : Nat → Resp := fun _ => Resp.ok

def whMain : Webhooks :=
  { main := "https://discord.com/api/webhooks/123/abc", craigslist := "", facebook := "" }

/-- A 429 answered by a 204 on the retry, then a 429 answered by a 500. -/
def rateResps : Nat → Resp := fun n =>
  if n = 0 then Resp.rate 5000
  else if n = 1 then Resp.ok
  else if n = 2 then Resp.rate 1000
  else Resp.err 500

theorem send_batch_delivery_accounting_witness :
    (sendBatches rateResps "https://discord.com/api/webhooks/123/abc" 0
        [[httpImageListing, dataUriListing], [emptyImageListing]]).1 = 2
    ∧ (send_batch whMain rateResps
        [httpImageListing, dataUriListing, emptyImageListing]).1 = 1 := by
  constructor
  · rw [(send_batch_delivery_accounting rateResps 0
      "https://discord.com/api/webhooks/123/abc" [] [[httpImageListing, dataUriListing],
      [emptyImageListing]] whMain []).2.1]
    decide
  · rw [(send_batch_delivery_accounting rateResps 0 "" [] [] whMain
      [httpImageListing, dataUriListing, emptyImageListing]).2.2]
    decide

/-! ## Claim C5: batch chunking -/

theorem chunksGo_flatten {α : Type} :
    ∀ (fuel : Nat) (l : List α), l.length ≤ fuel → (chunksGo fuel l).flatten = l := by
  intro fuel
  induction fuel with
  | zero =>
    intro l hl
    cases l with
    | nil => rfl
    | cons x xs => simp at hl
  | succ f ih =>
    intro l hl
    cases l with
    | nil => rfl
    | cons x xs =>
      simp only [chunksGo, List.flatten_cons]
      rw [ih ((x :: xs).drop maxEmbedsPerMessage)
        (by simp [maxEmbedsPerMessage] at hl ⊢; omega)]
      exact List.take_append_drop _ _

theorem chunksGo_shape {α : Type} :
    ∀ (fuel : Nat) (l : List α), l.length ≤ fuel →
      ∀ c ∈ chunksGo fuel l, c ≠ [] ∧ c.length ≤ maxEmbedsPerMessage := by
  intro fuel
  induction fuel with
  | zero => intro l _ c hc; simp [chunksGo] at hc
  | succ f ih =>
    intro l hl c hc
    cases l with
    | nil => simp [chunksGo] at hc
    | cons x xs =>
      simp only [chunksGo, List.mem_cons] at hc
      rcases hc with h | h
      · subst h
        constructor
        · simp [maxEmbedsPerMessage]
        · simp [List.length_take]
      · exact ih ((x :: xs).drop maxEmbedsPerMessage)
          (by simp [maxEmbedsPerMessage] at hl ⊢; omega) c h

theorem chunksGo_eq_nil {α : Type} :
    ∀ (fuel : Nat) (l : List α), chunksGo fuel l = [] → l.length ≤ fuel → l = [] := by
  intro fuel l h hl
  cases fuel with
  | zero =>
    cases l with
    | nil => rfl
    | cons x xs => simp at hl
  | succ f =>
    cases l with
    | nil => rfl
    | cons x xs => simp [chunksGo] at h

theorem chunksGo_dropLast {α : Type} :
    ∀ (fuel : Nat) (l : List α), l.length ≤ fuel →
      ∀ c ∈ (chunksGo fuel l).dropLast, c.length = maxEmbedsPerMessage := by
  intro fuel
  induction fuel with
  | zero => intro l _ c hc; simp [chunksGo] at hc
  | succ f ih =>
    intro l hl c hc
    cases l with
    | nil => simp [chunksGo] at hc
    | cons x xs =>
      simp only [chunksGo] at hc
      cases htail : chunksGo f ((x :: xs).drop maxEmbedsPerMessage) with
      | nil => rw [htail] at hc; simp at hc
      | cons t ts =>
        rw [htail, List.dropLast_cons_of_ne_nil (by simp), List.mem_cons] at hc
        have hdrop : ((x :: xs).drop maxEmbedsPerMessage).length ≤ f := by
          simp [maxEmbedsPerMessage] at hl ⊢
          omega
        rcases hc with h | h
        · subst h
          have hne : (x :: xs).drop maxEmbedsPerMessage ≠ [] := by
            intro hnil
            rw [hnil] at htail
            cases f <;> simp [chunksGo] at htail
          have hlen : maxEmbedsPerMessage < (x :: xs).length := by
            by_contra hle
            push_neg at hle
            exact hne (List.drop_eq_nil_of_le hle)
          rw [List.length_take]
          simp [maxEmbedsPerMessage] at hlen ⊢
          omega
        · rw [← htail] at h
          exact ih _ hdrop c h

/-- The platform the grouping loop sees is constant, so the whole batch
lands in one bucket, in order. -/
theorem groupByPlatform_single (p : String) :
    ∀ (ls : List Listing) (acc : List Listing),
      (∀ l ∈ ls, l.platform = p) →
      ls.foldl addToGroups [(p, acc)] = [(p, acc ++ ls)] := by
  intro ls
  induction ls with
  | nil => intro acc _; simp
  | cons l ls ih =>
    intro acc hp
    have hlp : l.platform = p := hp l (List.mem_cons_self l ls)
    have hstep : addToGroups [(p, acc)] l = [(p, acc ++ [l])] := by
      simp [addToGroups, hlp]
    simp only [List.foldl_cons, hstep]
    rw [ih (acc ++ [l]) (fun x hx => hp x (List.mem_cons_of_mem l hx))]
    simp

/-- Batch payload carried by a post event. -/
def evPostBatch : Ev → Option (List Listing)
  | .post _ b => some b
  | .sleep _ => none

theorem sendBatches_ok_posts (resps : Nat → Resp) (url : String)
    (hok : ∀ n, resps n = Resp.ok) :
    ∀ (bs : List (List Listing)) (n : Nat),
      (sendBatches resps url n bs).2.1.filterMap evPostBatch = bs := by
  intro bs
  induction bs with
  | nil => intro n; rfl
  | cons b bs ih =>
    intro n
    have hpost : postBatch resps n url b = (b.length, [Ev.post url b], n + 1) := by
      simp [postBatch, hok n]
    simp only [sendBatches, hpost]
    cases bs with
    | nil => simp [sendBatches, evPostBatch]
    | cons b₂ bs₂ =>
      simp only [List.filterMap_append, List.filterMap_cons]
      simp [evPostBatch, ih (n + 1)]

/-- C5: the batches sent for one platform are exactly the consecutive
slices of at most `MAX_EMBEDS_PER_MESSAGE` listings of the input in input
order — their concatenation restores the input, every batch is nonempty
and capped at 10, every batch but the last is exactly 10, and (under
successful sends) each batch is posted exactly once, in order. -/
theorem send_batch_chunking (w : Webhooks) (resps : Nat → Resp) (p : String)
    (ls : List Listing)
    (hplat : ∀ l ∈ ls, l.platform = p)
    (hok : ∀ n, resps n = Resp.ok)
    (hurl : getWebhookUrl w p ≠ "")
    (hne : ls ≠ []) :
    (chunks ls).flatten = ls
    ∧ (∀ c ∈ chunks ls, c ≠ [] ∧ c.length ≤ maxEmbedsPerMessage)
    ∧ (∀ c ∈ (chunks ls).dropLast, c.length = maxEmbedsPerMessage)
    ∧ (send_batch w resps ls).2.filterMap evPostBatch = chunks ls := by
  refine ⟨chunksGo_flatten ls.length ls le_rfl,
    chunksGo_shape ls.length ls le_rfl,
    chunksGo_dropLast ls.length ls le_rfl, ?_⟩
  have hgrp : groupByPlatform ls = [(p, ls)] := by
    cases ls with
    | nil => exact absurd rfl hne
    | cons l ls' =>
      have hlp : l.platform = p := hplat l (List.mem_cons_self l ls')
      unfold groupByPlatform
      simp only [List.foldl_cons]
      rw [show addToGroups [] l = [(p, [l])] by simp [addToGroups, hlp]]
      rw [groupByPlatform_single p ls' [l]
        (fun x hx => hplat x (List.mem_cons_of_mem l hx))]
      simp
  unfold send_batch
  rw [if_neg hne, hgrp]
  simp only [sendGroups, if_neg hurl]
  simp only [List.append_nil]
  exact sendBatches_ok_posts resps _ hok (chunks ls) 0

/-- A batch of 23 same-platform listings. -/
def clDemo (i : Nat) : Listing :=
  { id := "cl_" ++ toString i, platform := "craigslist", title := "sectional"
    price := some "$100", url := "https://columbus.craigslist.org/7.html"
    image_url := none, location := some "Columbus, OH" }

def demo23 : List Listing := (List.range 23).map clDemo

theorem send_batch_chunking_witness :
    (chunks demo23).flatten = demo23
    ∧ (send_batch whMain okResps demo23).2.filterMap evPostBatch = chunks demo23
    ∧ (chunks demo23).map List.length = [10, 10, 3] := by
  have h := send_batch_chunking whMain okResps "craigslist" demo23
    (by decide) (fun _ => rfl) (by decide) (by decide)
  exact ⟨h.1, h.2.2.2, by decide⟩

/-! ## Claim C8: pacing between batches

The code sleeps `RATE_LIMIT_DELAY` only under
`i + MAX_EMBEDS_PER_MESSAGE < len(platform_listings)`, i.e. only when a
later batch of the *same* platform exists; nothing separates the last
batch of one platform from the first of the next. -/

/-- Sleep event recognizer. -/
def isSleepEv : Ev → Bool
  | .sleep _ => true
  | .post _ _ => false

/-- A facebook listing to pair with the craigslist one. -/
def fbDemo : Listing :=
  { id := "fb_9", platform := "facebook", title := "blue sofa", price := some "$60"
    url := "https://www.facebook.com/marketplace/item/9/", image_url := none
    location := some "Columbus, OH" }

/-- C8 counterexample: a two-platform input whose sends all succeed yields
two consecutive posts with no sleep at all between them — no pacing delay
is inserted between the last batch of one platform and the first of the
next. -/
theorem send_batch_no_cross_platform_delay :
    (send_batch whMain okResps [httpImageListing, fbDemo]).2
      = [Ev.post "https://discord.com/api/webhooks/123/abc" [httpImageListing],
         Ev.post "https://discord.com/api/webhooks/123/abc" [fbDemo]]
    ∧ ((send_batch whMain okResps [httpImageListing, fbDemo]).2.all
        fun e => !(isSleepEv e)) = true := by
  decide

/-- Expected events for one platform's batches under all-successful sends:
posts separated by the pacing sleep, with no trailing sleep. -/
def platformTrace (url : String) : List (List Listing) → List Ev
  | [] => []
  | [b] => [Ev.post url b]
  | b :: b₂ :: bs => Ev.post url b :: Ev.sleep rateLimitDelayMs
      :: platformTrace url (b₂ :: bs)

/-- Expected events across platforms: the per-platform traces concatenated
with nothing in between, skipping platforms without a webhook. -/
def groupsTrace (w : Webhooks) : List (String × List Listing) → List Ev
  | [] => []
  | g :: gs =>
    (if getWebhookUrl w g.1 = "" then []
     else platformTrace (getWebhookUrl w g.1) (chunks g.2)) ++ groupsTrace w gs

theorem sendBatches_ok_trace (resps : Nat → Resp) (url : String)
    (hok : ∀ n, resps n = Resp.ok) :
    ∀ (bs : List (List Listing)) (n : Nat),
      (sendBatches resps url n bs).2.1 = platformTrace url bs := by
  intro bs
  induction bs with
  | nil => intro n; rfl
  | cons b bs ih =>
    intro n
    have hpost : postBatch resps n url b = (b.length, [Ev.post url b], n + 1) := by
      simp [postBatch, hok n]
    simp only [sendBatches, hpost]
    cases bs with
    | nil => simp [sendBatches, platformTrace]
    | cons b₂ bs₂ => simp [platformTrace, ih (n + 1)]

/-- C8 amended: under successful sends, the ≈2.1 s pacing delay separates
exactly the consecutive batches *within* one platform; no delay follows a
platform's final batch, in particular none between the last batch of one
platform and the first batch of the next. -/
theorem send_batch_delay_within_platform_only (w : Webhooks) (resps : Nat → Resp)
    (ls : List Listing) (hok : ∀ n, resps n = Resp.ok) :
    (send_batch w resps ls).2 = groupsTrace w (groupByPlatform ls) := by
  have hgs : ∀ (gs : List (String × List Listing)) (n : Nat),
      (sendGroups w resps n gs).2 = groupsTrace w gs := by
    intro gs
    induction gs with
    | nil => intro n; rfl
    | cons g gs ih =>
      intro n
      simp only [sendGroups, groupsTrace]
      split
      case isTrue h => simp [ih n]
      case isFalse h =>
        dsimp only
        rw [sendBatches_ok_trace resps _ hok (chunks g.2) n, ih _]
  unfold send_batch
  split
  case isTrue h => rw [h]; rfl
  case isFalse h => exact hgs (groupByPlatform ls) 0

theorem send_batch_delay_within_platform_only_witness :
    (send_batch whMain okResps [httpImageListing, fbDemo]).2
        = groupsTrace whMain (groupByPlatform [httpImageListing, fbDemo])
    ∧ groupsTrace whMain (groupByPlatform [httpImageListing, fbDemo])
        = [Ev.post "https://discord.com/api/webhooks/123/abc" [httpImageListing],
           Ev.post "https://discord.com/api/webhooks/123/abc" [fbDemo]] := by
  exact ⟨send_batch_delay_within_platform_only whMain okResps
    [httpImageListing, fbDemo] (fun _ => rfl), by decide⟩

/-! ## Claim C3: cross-term dedup keeps first occurrences in order -/

/-- First-occurrence selection written out from the claim: keep the head,
drop every later listing with the same id, recurse (with the length as
structural fuel). -/
def keepFirstsGo : Nat → List Listing → List Listing
  | 0, _ => []
  | _, [] => []
  | fuel + 1, l :: ls =>
    l :: keepFirstsGo fuel (ls.filter fun x => decide (x.id ≠ l.id))

/-- The first occurrence of every id, in encounter order. -/
def keepFirsts (ls : List Listing) : List Listing :=
  keepFirstsGo ls.length ls

theorem cycleDedup_sublist : ∀ (ls : List Listing) (seen : List String),
    List.Sublist (cycleDedup seen ls) ls := by
  intro ls
  induction ls with
  | nil => intro seen; simp [cycleDedup]
  | cons l ls ih =>
    intro seen
    simp only [cycleDedup]
    split
    · exact (ih seen).cons l
    · exact (ih (l.id :: seen)).cons₂ l

theorem cycleDedup_not_seen : ∀ (ls : List Listing) (seen : List String) (x : Listing),
    x ∈ cycleDedup seen ls → x.id ∉ seen := by
  intro ls
  induction ls with
  | nil => intro seen x hx; simp [cycleDedup] at hx
  | cons l ls ih =>
    intro seen x hx
    simp only [cycleDedup] at hx
    split at hx
    · exact ih seen x hx
    · rcases List.mem_cons.mp hx with h | h
      · subst h; assumption
      · have := ih (l.id :: seen) x h
        exact fun hmem => this (List.mem_cons_of_mem _ hmem)

theorem cycleDedup_nodup : ∀ (ls : List Listing) (seen : List String),
    ((cycleDedup seen ls).map Listing.id).Nodup := by
  intro ls
  induction ls with
  | nil => intro seen; simp [cycleDedup]
  | cons l ls ih =>
    intro seen
    simp only [cycleDedup]
    split
    · exact ih seen
    · simp only [List.map_cons, List.nodup_cons]
      refine ⟨?_, ih (l.id :: seen)⟩
      intro hmem
      obtain ⟨x, hx, hid⟩ := List.mem_map.mp hmem
      exact cycleDedup_not_seen ls (l.id :: seen) x hx (hid ▸ List.mem_cons_self _ _)

theorem cycleDedup_congr : ∀ (ls : List Listing) (s₁ s₂ : List String),
    (∀ a, a ∈ s₁ ↔ a ∈ s₂) → cycleDedup s₁ ls = cycleDedup s₂ ls := by
  intro ls
  induction ls with
  | nil => intro s₁ s₂ _; rfl
  | cons l ls ih =>
    intro s₁ s₂ hiff
    simp only [cycleDedup]
    by_cases h : l.id ∈ s₁
    · rw [if_pos h, if_pos ((hiff l.id).mp h)]
      exact ih s₁ s₂ hiff
    · rw [if_neg h, if_neg (fun h₂ => h ((hiff l.id).mpr h₂))]
      refine congrArg (l :: ·) (ih _ _ fun a => ?_)
      simp only [List.mem_cons]
      exact or_congr Iff.rfl (hiff a)

theorem cycleDedup_filter : ∀ (ls : List Listing) (seen : List String) (i : String),
    cycleDedup (i :: seen) ls
      = cycleDedup seen (ls.filter fun x => decide (x.id ≠ i)) := by
  intro ls
  induction ls with
  | nil => intro seen i; rfl
  | cons l ls ih =>
    intro seen i
    rw [List.filter_cons]
    by_cases h₁ : l.id = i
    · rw [if_neg (by simp [h₁])]
      have hmem : l.id ∈ i :: seen := by simp [h₁]
      simp only [cycleDedup, if_pos hmem]
      exact ih seen i
    · rw [if_pos (by simp [h₁])]
      by_cases h₂ : l.id ∈ seen
      · have hmem : l.id ∈ i :: seen := List.mem_cons_of_mem i h₂
        simp only [cycleDedup, if_pos hmem, if_pos h₂]
        exact ih seen i
      · have hmem : l.id ∉ i :: seen := by simp [List.mem_cons, h₁, h₂]
        simp only [cycleDedup, if_neg hmem, if_neg h₂]
        refine congrArg (l :: ·) ?_
        rw [cycleDedup_congr ls (l.id :: i :: seen) (i :: l.id :: seen)
          (fun a => by simp [List.mem_cons]; tauto)]
        exact ih (l.id :: seen) i

theorem keepFirstsGo_fuel : ∀ (f₁ : Nat) (ls : List Listing) (f₂ : Nat),
    ls.length ≤ f₁ → ls.length ≤ f₂ → keepFirstsGo f₁ ls = keepFirstsGo f₂ ls := by
  intro f₁
  induction f₁ with
  | zero =>
    intro ls f₂ h₁ _
    cases ls with
    | nil => cases f₂ <;> rfl
    | cons l ls => simp at h₁
  | succ f ih =>
    intro ls f₂ h₁ h₂
    cases ls with
    | nil => cases f₂ <;> rfl
    | cons l ls =>
      cases f₂ with
      | zero => simp at h₂
      | succ f₂ =>
        simp only [keepFirstsGo]
        refine congrArg (l :: ·) (ih _ f₂ ?_ ?_)
        · exact (List.length_filter_le _ ls).trans (by simpa using h₁)
        · exact (List.length_filter_le _ ls).trans (by simpa using h₂)

theorem keepFirsts_cons (l : Listing) (ls : List Listing) :
    keepFirsts (l :: ls) = l :: keepFirsts (ls.filter fun x => decide (x.id ≠ l.id)) := by
  unfold keepFirsts
  simp only [List.length_cons, keepFirstsGo]
  refine congrArg (l :: ·) (keepFirstsGo_fuel ls.length _ _ (List.length_filter_le _ ls) le_rfl)

theorem cycleDedup_keepFirsts : ∀ (n : Nat) (ls : List Listing),
    ls.length ≤ n → cycleDedup [] ls = keepFirsts ls := by
  intro n
  induction n with
  | zero =>
    intro ls h
    cases ls with
    | nil => rfl
    | cons l ls => simp at h
  | succ n ih =>
    intro ls h
    cases ls with
    | nil => rfl
    | cons l ls =>
      rw [keepFirsts_cons]
      simp only [cycleDedup, if_neg (List.not_mem_nil l.id)]
      refine congrArg (l :: ·) ?_
      rw [cycleDedup_filter ls [] l.id]
      exact ih _ ((List.length_filter_le _ ls).trans (by simpa using h))

/-- C3: the cross-term batch a scraper's `get_listings` accumulates has
pairwise-distinct ids, is a subsequence of the concatenated per-term pages
(so the relative order of kept listings is the encounter order), and keeps
exactly the first occurrence of every id. -/
theorem get_listings_cross_term_dedup (pages : List (List Listing)) :
    ((getListingsBatch pages).map Listing.id).Nodup
    ∧ List.Sublist (getListingsBatch pages) pages.flatten
    ∧ getListingsBatch pages = keepFirsts pages.flatten := by
  exact ⟨cycleDedup_nodup pages.flatten [],
    cycleDedup_sublist pages.flatten [],
    cycleDedup_keepFirsts pages.flatten.length pages.flatten le_rfl⟩

/-- Two term pages sharing the id of `clDemo 2`, the later occurrence with
different field values. -/
def dupTermPages : List (List Listing) :=
  [[clDemo 1, clDemo 2], [{ clDemo 2 with title := "same id, seen later" }, clDemo 3]]

theorem get_listings_cross_term_dedup_witness :
    getListingsBatch dupTermPages = keepFirsts dupTermPages.flatten
    ∧ getListingsBatch dupTermPages = [clDemo 1, clDemo 2, clDemo 3] := by
  exact ⟨(get_listings_cross_term_dedup dupTermPages).2.2, by decide⟩

/-! ## Claim C1: early-stop correctness of the per-page extraction -/

/-- Whether a craigslist card's derived id lies in the seen set (cards
without a derived id cannot trigger the early stop). -/
def clHit (pyHash : String → Int) (seen : List String) (c : ClCard) : Bool :=
  match clCardId pyHash c with
  | some i => decide (i ∈ seen)
  | none => false

/-- Whether a facebook link's derived id lies in the seen set. -/
def fbHit (pyHash : String → Int) (seen : List String) (lk : FbLink) : Bool :=
  decide (fbExtractId pyHash lk.href ∈ seen)

theorem clParsePage_nil_flag (pyHash : String → Int) :
    ∀ cards : List ClCard, (clParsePage pyHash [] cards).2 = false := by
  intro cards
  induction cards with
  | nil => rfl
  | cons c cs ih =>
    cases hfind : clFindLink c with
    | none => simp only [clParsePage, hfind]; exact ih
    | some link =>
      simp only [clParsePage, hfind]
      by_cases hhref : link.href = ""
      · rw [if_pos hhref]; exact ih
      · rw [if_neg hhref, if_neg (by simp)]
        exact ih

theorem clHit_of_link (pyHash : String → Int) (seen : List String) (c : ClCard)
    (link : ClLink) (hfind : clFindLink c = some link) (hhref : ¬ link.href = "") :
    clHit pyHash seen c = decide (clExtractId pyHash (clCardUrl link) ∈ seen) := by
  simp only [clHit, clCardId, hfind]
  rw [if_neg hhref]

theorem clHit_no_link (pyHash : String → Int) (seen : List String) (c : ClCard)
    (hfind : clFindLink c = none) : clHit pyHash seen c = false := by
  simp only [clHit, clCardId, hfind]

theorem clHit_empty_href (pyHash : String → Int) (seen : List String) (c : ClCard)
    (link : ClLink) (hfind : clFindLink c = some link) (hhref : link.href = "") :
    clHit pyHash seen c = false := by
  simp only [clHit, clCardId, hfind]
  rw [if_pos hhref]

theorem clParsePage_no_hit (pyHash : String → Int) :
    ∀ (cards : List ClCard) (seen : List String),
      (∀ c ∈ cards, clHit pyHash seen c = false) →
      clParsePage pyHash seen cards = clParsePage pyHash [] cards := by
  intro cards
  induction cards with
  | nil => intro seen _; rfl
  | cons c cs ih =>
    intro seen hno
    have htail : ∀ x ∈ cs, clHit pyHash seen x = false :=
      fun x hx => hno x (List.mem_cons_of_mem c hx)
    cases hfind : clFindLink c with
    | none => simp only [clParsePage, hfind]; exact ih seen htail
    | some link =>
      simp only [clParsePage, hfind]
      by_cases hhref : link.href = ""
      · rw [if_pos hhref, if_pos hhref]
        exact ih seen htail
      · have hhit := hno c (List.mem_cons_self c cs)
        rw [clHit_of_link pyHash seen c link hfind hhref] at hhit
        have hnotin : clExtractId pyHash (clCardUrl link) ∉ seen := by
          simpa using hhit
        rw [if_neg hhref, if_neg hhref,
          if_neg (fun h => hnotin h.2), if_neg (by simp)]
        rw [ih seen htail]

theorem clParsePage_early_stop (pyHash : String → Int) :
    ∀ (cards : List ClCard) (k : Nat) (seen : List String) (hk : k < cards.length),
      (∀ c ∈ cards.take k, clHit pyHash seen c = false) →
      clHit pyHash seen (cards.get ⟨k, hk⟩) = true →
      clParsePage pyHash seen cards
        = ((clParsePage pyHash [] (cards.take k)).1, true) := by
  intro cards
  induction cards with
  | nil => intro k seen hk; simp at hk
  | cons c cs ih =>
    intro k seen hk hpre hhit
    cases k with
    | zero =>
      simp only [List.get] at hhit
      cases hfind : clFindLink c with
      | none => rw [clHit_no_link pyHash seen c hfind] at hhit; simp at hhit
      | some link =>
        by_cases hhref : link.href = ""
        · rw [clHit_empty_href pyHash seen c link hfind hhref] at hhit
          simp at hhit
        · rw [clHit_of_link pyHash seen c link hfind hhref] at hhit
          simp only [decide_eq_true_eq] at hhit
          simp only [clParsePage, hfind]
          rw [if_neg hhref, if_pos ⟨List.ne_nil_of_mem hhit, hhit⟩]
    | succ k =>
      have hk' : k < cs.length := by simpa using hk
      have hheadno : clHit pyHash seen c = false :=
        hpre c (by simp)
      have hpre' : ∀ x ∈ cs.take k, clHit pyHash seen x = false :=
        fun x hx => hpre x (by simp [List.take_cons]; exact Or.inr hx)
      have hhit' : clHit pyHash seen (cs.get ⟨k, hk'⟩) = true := by
        simpa using hhit
      have ihcs := ih k seen hk' hpre' hhit'
      cases hfind : clFindLink c with
      | none =>
        simp only [List.take_cons, clParsePage, hfind]
        exact ihcs
      | some link =>
        by_cases hhref : link.href = ""
        · simp only [List.take_cons, clParsePage, hfind]
          rw [if_pos hhref, if_pos hhref]
          exact ihcs
        · rw [clHit_of_link pyHash seen c link hfind hhref] at hheadno
          have hnotin : clExtractId pyHash (clCardUrl link) ∉ seen := by
            simpa using hheadno
          simp only [List.take_cons, clParsePage, hfind]
          rw [if_neg hhref, if_neg hhref,
            if_neg (fun h => hnotin h.2), if_neg (by simp)]
          rw [ihcs]

theorem fbGo_nil_flag (pyHash : String → Int) :
    ∀ (links : List FbLink) (pageSeen : List String),
      (fbGo pyHash [] pageSeen links).2 = false := by
  intro links
  induction links with
  | nil => intro pageSeen; rfl
  | cons lk ls ih =>
    intro pageSeen
    simp only [fbGo]
    by_cases hmem : fbExtractId pyHash lk.href ∈ pageSeen
    · rw [if_pos hmem]; exact ih pageSeen
    · rw [if_neg hmem, if_neg (by simp)]
      cases hpar : fbListingOf lk (fbExtractId pyHash lk.href) with
      | none => exact ih _
      | some l => exact ih _

theorem fbGo_no_hit (pyHash : String → Int) :
    ∀ (links : List FbLink) (seen pageSeen : List String),
      (∀ lk ∈ links, fbHit pyHash seen lk = false) →
      fbGo pyHash seen pageSeen links = fbGo pyHash [] pageSeen links := by
  intro links
  induction links with
  | nil => intro seen pageSeen _; rfl
  | cons lk ls ih =>
    intro seen pageSeen hno
    have htail : ∀ x ∈ ls, fbHit pyHash seen x = false :=
      fun x hx => hno x (List.mem_cons_of_mem lk hx)
    have hnotin : fbExtractId pyHash lk.href ∉ seen := by
      have := hno lk (List.mem_cons_self lk ls)
      simpa [fbHit] using this
    simp only [fbGo]
    by_cases hmem : fbExtractId pyHash lk.href ∈ pageSeen
    · rw [if_pos hmem, if_pos hmem]; exact ih seen pageSeen htail
    · rw [if_neg hmem, if_neg hmem, if_neg (fun h => hnotin h.2), if_neg (by simp)]
      cases hpar : fbListingOf lk (fbExtractId pyHash lk.href) with
      | none => exact ih seen _ htail
      | some l => rw [ih seen _ htail]

theorem fbGo_early_stop (pyHash : String → Int) :
    ∀ (links : List FbLink) (k : Nat) (seen pageSeen : List String),
      (∀ x ∈ pageSeen, x ∉ seen) →
      ∀ (hk : k < links.length),
      (∀ lk ∈ links.take k, fbHit pyHash seen lk = false) →
      fbHit pyHash seen (links.get ⟨k, hk⟩) = true →
      fbGo pyHash seen pageSeen links
        = ((fbGo pyHash [] pageSeen (links.take k)).1, true) := by
  intro links
  induction links with
  | nil => intro k seen pageSeen _ hk; simp at hk
  | cons lk ls ih =>
    intro k seen pageSeen hP hk hpre hhit
    cases k with
    | zero =>
      simp only [List.get, fbHit, decide_eq_true_eq] at hhit
      have hmem : fbExtractId pyHash lk.href ∉ pageSeen :=
        fun h => hP _ h hhit
      simp only [fbGo]
      rw [if_neg hmem, if_pos ⟨List.ne_nil_of_mem hhit, hhit⟩]
    | succ k =>
      have hk' : k < ls.length := by simpa using hk
      have hnotin : fbExtractId pyHash lk.href ∉ seen := by
        have := hpre lk (by simp)
        simpa [fbHit] using this
      have hpre' : ∀ x ∈ ls.take k, fbHit pyHash seen x = false :=
        fun x hx => hpre x (by simp [List.take_cons]; exact Or.inr hx)
      have hhit' : fbHit pyHash seen (ls.get ⟨k, hk'⟩) = true := by
        simpa using hhit
      simp only [List.take_cons, fbGo]
      by_cases hmem : fbExtractId pyHash lk.href ∈ pageSeen
      · rw [if_pos hmem, if_pos hmem]
        exact ih k seen pageSeen hP hk' hpre' hhit'
      · have hP' : ∀ x ∈ fbExtractId pyHash lk.href :: pageSeen, x ∉ seen := by
          intro x hx
          rcases List.mem_cons.mp hx with h | h
          · rw [h]; exact hnotin
          · exact hP x h
        rw [if_neg hmem, if_neg hmem,
          if_neg (fun h => hnotin h.2), if_neg (by simp)]
        cases hpar : fbListingOf lk (fbExtractId pyHash lk.href) with
        | none => exact ih k seen _ hP' hk' hpre' hhit'
        | some l => rw [ih k seen _ hP' hk' hpre' hhit']

/-- C1: per-page extraction with early stop, for both scrapers.  If the
record at index `k` is the first whose derived id is in the seen set, the
page yields exactly the listings parsed from the first `k` records and the
early-stop flag is `true`; if no record's id is seen, it yields the
listings of the whole page with the flag `false`; if the very first
record's id is seen, it yields no listings with the flag `true`. -/
theorem early_stop_extraction (pyHash : String → Int) (seen : List String)
    (cards : List ClCard) (links : List FbLink) (k j : Nat) :
    ((hk : k < cards.length) →
      (∀ c ∈ cards.take k, clHit pyHash seen c = false) →
      clHit pyHash seen (cards.get ⟨k, hk⟩) = true →
      clParsePage pyHash seen cards
        = ((clParsePage pyHash [] (cards.take k)).1, true))
    ∧ ((∀ c ∈ cards, clHit pyHash seen c = false) →
      clParsePage pyHash seen cards = ((clParsePage pyHash [] cards).1, false))
    ∧ (∀ (hc : cards ≠ []), clHit pyHash seen (cards.head hc) = true →
      clParsePage pyHash seen cards = ([], true))
    ∧ ((hj : j < links.length) →
      (∀ lk ∈ links.take j, fbHit pyHash seen lk = false) →
      fbHit pyHash seen (links.get ⟨j, hj⟩) = true →
      fbParsePage pyHash seen links
        = ((fbParsePage pyHash [] (links.take j)).1, true))
    ∧ ((∀ lk ∈ links, fbHit pyHash seen lk = false) →
      fbParsePage pyHash seen links = ((fbParsePage pyHash [] links).1, false))
    ∧ (∀ (hl : links ≠ []), fbHit pyHash seen (links.head hl) = true →
      fbParsePage pyHash seen links = ([], true)) := by
  refine ⟨fun hk => clParsePage_early_stop pyHash cards k seen hk, ?_, ?_,
    fun hj hpre hhit => fbGo_early_stop pyHash links j seen []
      (by simp) hj hpre hhit, ?_, ?_⟩
  · intro hno
    rw [clParsePage_no_hit pyHash cards seen hno,
      ← clParsePage_nil_flag pyHash cards]
  · intro hc hhead
    cases cards with
    | nil => exact absurd rfl hc
    | cons c cs =>
      exact clParsePage_early_stop pyHash (c :: cs) 0 seen (by simp)
        (by simp) hhead
  · intro hno
    unfold fbParsePage
    rw [fbGo_no_hit pyHash links seen [] hno, ← fbGo_nil_flag pyHash links []]
  · intro hl hhead
    cases links with
    | nil => exact absurd rfl hl
    | cons lk ls =>
      exact fbGo_early_stop pyHash (lk :: ls) 0 seen [] (by simp) (by simp)
        (by simp) hhead

/-- A craigslist gallery card whose posting link carries the given href. -/
def mkClCard (href title : String) : ClCard :=
  { postingTitleLink := some { href := href, labelText := some title, text := title }
    fallbackLink := none, priceText := some "$50", img := none }

/-- A newest-first craigslist page: one fresh posting, then a known one. -/
def clPage : List ClCard :=
  [mkClCard "/fuo/101.html" "Gray sectional", mkClCard "/fuo/100.html" "Old couch"]

/-- A facebook item link with a parsed parent card. -/
def mkFbLink (href : String) : FbLink :=
  { href := href
    card := some { spans := ["Comfy sectional sofa in great shape", "$40", "Columbus, OH"]
                   imgSrc := none } }

/-- A newest-first facebook page of two fresh items. -/
def fbPage : List FbLink :=
  [mkFbLink "/marketplace/item/200/", mkFbLink "/marketplace/item/201/"]

theorem early_stop_extraction_witness :
    clParsePage (fun _ => 0) ["cl_100"] clPage
      = ((clParsePage (fun _ => 0) [] (clPage.take 1)).1, true)
    ∧ (clParsePage (fun _ => 0) ["cl_100"] clPage).1.map Listing.id = ["cl_101"]
    ∧ fbParsePage (fun _ => 0) ["fb_200"] fbPage = ([], true)
    ∧ (fbParsePage (fun _ => 0) [] fbPage).1.map Listing.id = ["fb_200", "fb_201"] := by
  refine ⟨(early_stop_extraction (fun _ => 0) ["cl_100"] clPage fbPage 1 0).1
      (by decide) (by decide) (by decide),
    by decide,
    (early_stop_extraction (fun _ => 0) ["fb_200"] clPage fbPage 1 0).2.2.2.2.2
      (by decide) (by decide),
    by decide⟩

end CouchFinder
